import Mathlib

/-!
Verification development for the filesystem service of rust-mcp-filesystem.

The Rust sources under src/ are shallowly embedded as executable Lean
definitions: strings and byte streams become lists of characters, machine
integers become Nat with explicit wrapping where Rust release-mode overflow
matters, fallible operations return Option or Except, and the filesystem is
an explicit model passed as an argument.  Functions of the repository keep
their source names (camel-cased).  Definitions marked
"Modelled from the spec:" correspond to code of the repository whose file
(the service core) is not part of src/; they follow the specification text.
-/

namespace RustMcpFs

/-! ## Path components and the filesystem model (fs_service/utils.rs) -/

/-- A component of a path, as produced by Rust's Path::components:
either a Windows verbatim-disk prefix component or an ordinary component. -/
inductive PathComponent where
  | verbatimDisk : PathComponent
  | normal : String → PathComponent
  deriving DecidableEq, Repr

/-- A model of the filesystem seen by contains_symlink: for every
path (list of components) it answers whether the path exists and whether
symlink_metadata reports a symlink.  symlink_metadata is modelled total
(no I/O errors), matching the Ok paths of the Rust function. -/
structure FsModel where
  pexists : List PathComponent → Bool
  symlink : List PathComponent → Bool

/-- Embeds is_verbatim_disk from fs_service/utils.rs (lines 109-114). -/
def isVerbatimDisk (c : PathComponent) : Bool :=
  match c with
  | .verbatimDisk => true
  | .normal _ => false

/-- Loop of contains_symlink (fs_service/utils.rs, lines 117-141):
acc is the current_path accumulated so far; every component is pushed,
a verbatim-disk component is skipped, a non-existing current path breaks
the loop with false, a symlink current path returns true. -/
def containsSymlinkAux (fs : FsModel) (acc : List PathComponent) :
    List PathComponent → Bool
  | [] => false
  | c :: rest =>
    let cur := acc ++ [c]
    if isVerbatimDisk c then containsSymlinkAux fs cur rest
    else if !fs.pexists cur then false
    else if fs.symlink cur then true
    else containsSymlinkAux fs cur rest

/-- Embeds contains_symlink from fs_service/utils.rs (lines 117-141). -/
def containsSymlink (fs : FsModel) (path : List PathComponent) : Bool :=
  containsSymlinkAux fs [] path

/-! ## AST multi-file search counter (fs_service/search/ast.rs) -/

/-- MAX_FILES_WARNING from search_files_ast (ast.rs line 199). -/
def MAX_FILES_WARNING : Nat := 2000

/-- MAX_FILES_LIMIT from search_files_ast (ast.rs line 200). -/
def MAX_FILES_LIMIT : Nat := 10000

/-- State of the walk of search_files_ast: the atomic file counter,
the number of files handed to the AST parser, and whether a worker has
returned WalkState::Quit. -/
structure AstScanState where
  count : Nat
  parsed : Nat
  quit : Bool
  deriving DecidableEq, Repr

/-- One filter-passing file reaching lines 309-314 of ast.rs:
fetch_add returns the previous counter value; a previous value at or above
MAX_FILES_LIMIT quits the walk, otherwise the file is AST-parsed.
After a quit the walk visits no further entries, so the step is the
identity once quit is set (the parallel walk is serialised at the
atomic counter). -/
def astScanStep (st : AstScanState) : AstScanState :=
  if st.quit then st
  else
    let prev := st.count
    if prev ≥ MAX_FILES_LIMIT then
      { st with count := st.count + 1, quit := true }
    else
      { st with count := st.count + 1, parsed := st.parsed + 1 }

/-- The walk of search_files_ast over n filter-matching files. -/
def astScan : Nat → AstScanState
  | 0 => ⟨0, 0, false⟩
  | n + 1 => astScanStep (astScan n)

/-- The warning branch of ast.rs lines 360-365: the
"results may be incomplete" warning is emitted iff the final counter
reached MAX_FILES_LIMIT. -/
def astWarnEmitted (finalCount : Nat) : Bool :=
  finalCount ≥ MAX_FILES_LIMIT

/-- The informational branch of ast.rs lines 366-371: the note is
emitted iff the warning was not and the counter reached
MAX_FILES_WARNING. -/
def astInfoEmitted (finalCount : Nat) : Bool :=
  !(finalCount ≥ MAX_FILES_LIMIT) && (finalCount ≥ MAX_FILES_WARNING)

/-! ## read_file_lines, from-end branch (fs_service/io/read.rs, lines 57-127)

The file is modelled as a list of characters standing for its bytes (the
inputs of interest are ASCII, so from_utf8_lossy is the identity). -/

/-- The newline positions collected by the backward chunked scan of
read.rs lines 67-80: the chunks are visited from the end of the file
towards the start and each chunk is traversed in reverse, so the
positions of the newline bytes are pushed in descending order. -/
def newlinePositionsDesc (bytes : List Char) : List Nat :=
  ((List.range bytes.length).filter (fun i => bytes.getD i ' ' = '\n')).reverse

/-- The forward reading loop of read.rs lines 109-125: read up to n
newline-terminated chunks (read_until includes the terminator); a partial
last line at EOF is appended. -/
def takeLines : Nat → List Char → List Char
  | 0, _ => []
  | _ + 1, [] => []
  | n + 1, c :: cs =>
    if c = '\n' then c :: takeLines n cs else c :: takeLines (n + 1) cs

/-- Embeds the from_end branch of read_file_lines
(fs_service/io/read.rs lines 49-127): the empty-file and limit == Some(0)
early return, the backward newline scan, the partial-last-line check on
the final byte, the offset test, lines_to_read, the start position taken
from the descending newline-position vector, and the forward read. -/
def readFileLinesFromEnd (bytes : List Char) (offset : Nat)
    (limit : Option Nat) : String :=
  if bytes.length = 0 ∨ limit = some 0 then "" else
  let desc := newlinePositionsDesc bytes
  let lineCount := desc.length + (if bytes.getLast? ≠ some '\n' then 1 else 0)
  if offset ≥ lineCount then "" else
  let linesToRead := min (limit.getD (lineCount - offset)) (lineCount - offset)
  let startPos :=
    if lineCount - offset - linesToRead = 0 then 0
    else (desc.getD (lineCount - offset - linesToRead) 0) + 1
  String.mk (takeLines linesToRead (bytes.drop startPos))

/-- The selection the specification (and the repository's own test
test_from_end_optimization) prescribes for the from-end read: collect the
lines in source order and return the slice
lines[len - offset - take .. len - offset] with
take = min(limit ?? len - offset, len - offset), joined with the detected
line ending. -/
def specFromEndSlice (lines : List String) (offset : Nat)
    (limit : Option Nat) : List String :=
  let len := lines.length
  let take := min (limit.getD (len - offset)) (len - offset)
  (lines.drop (len - offset - take)).take take

/-- The ten-line file written by test_from_end_optimization
(tests/test_from_end_optimization.rs lines 11-15): line1..line10 joined
with a newline, no trailing newline. -/
def testTenLines : String :=
  "line1\nline2\nline3\nline4\nline5\nline6\nline7\nline8\nline9\nline10"

/-! ## validate_path (service core; modelled from the spec) -/

/-- The error kinds of path validation (spec section 4.1:
NotAllowed and the distinct symlink diagnostic). -/
inductive ValidateError where
  | notAllowed : ValidateError
  | symlinkInPath : ValidateError
  deriving DecidableEq, Repr

/-- Modelled from the spec: the environment validate_path runs in.
canon performs the canonicalization step of spec section 4.1 (resolve to
absolute, canonicalize the existing part and re-join the tail); it is a
parameter because it depends on the ambient filesystem.  home is the
user's home directory for tilde expansion, and fs is the filesystem used
for the symlink walk. -/
structure ValidateEnv where
  canon : List PathComponent → List PathComponent
  home : List PathComponent
  fs : FsModel

/-- Modelled from the spec: expansion of a leading tilde component
(spec section 4.1: a tilde only expands when it is the leading
component). -/
def expandHome (home : List PathComponent) :
    List PathComponent → List PathComponent
  | .normal "~" :: rest => home ++ rest
  | p => p

/-- Modelled from the spec: path lies under entry iff entry is an
initial run of the path's components (spec section 4.1, containment
after normalization of both sides). -/
def liesUnder (entry path : List PathComponent) : Bool :=
  path.take entry.length = entry

/-- Modelled from the spec: validate_path of the service core (the core
module is not part of src/; only its tests and callers are).  Spec
section 4.1: expand a leading tilde, canonicalize, reject with the
NotAllowed error when the resulting path does not lie under any entry of
the allow-list snapshot, and additionally reject an existing path any of
whose original components is a symlink with the distinct symlink
diagnostic. -/
def validatePath (env : ValidateEnv) (snapshot : List (List PathComponent))
    (p : List PathComponent) : Except ValidateError (List PathComponent) :=
  let original := expandHome env.home p
  let normalized := env.canon original
  if !snapshot.any (fun entry => liesUnder entry normalized) then
    .error .notAllowed
  else if env.fs.pexists original && containsSymlink env.fs original then
    .error .symlinkInPath
  else
    .ok normalized

/-! ## Glob matching and the include filters of the three searches

The glob_match crate used by files.rs and content.rs is modelled for the
fragment the repository exercises: a literal character matches itself, a
question mark matches any single character other than the separator, a
single star matches any run of characters without the separator, and a
double star matches any run including separators.  The recursion is
bounded by a fuel argument that dominates the pattern and text lengths. -/

/-- Drops characters up to and including the first separator, if any;
used to let a double star skip a whole path segment. -/
def afterSlash : List Char → Option (List Char)
  | [] => none
  | '/' :: rest => some rest
  | _ :: rest => afterSlash rest

/-- One step of the glob matcher; fuel bounds the recursion so the
definition is structural and kernel-evaluable.  A double star followed by
a separator matches any number of whole path segments, including none. -/
def globMatchFuel : Nat → List Char → List Char → Bool
  | 0, _, _ => false
  | _ + 1, [], [] => true
  | fuel + 1, '*' :: '*' :: '/' :: ps, ts =>
    globMatchFuel fuel ps ts
      || (match afterSlash ts with
          | none => false
          | some rest => globMatchFuel fuel ('*' :: '*' :: '/' :: ps) rest)
  | fuel + 1, '*' :: '*' :: ps, ts =>
    globMatchFuel fuel ps ts
      || (match ts with
          | [] => false
          | _ :: ts2 => globMatchFuel fuel ('*' :: '*' :: ps) ts2)
  | fuel + 1, '*' :: ps, ts =>
    globMatchFuel fuel ps ts
      || (match ts with
          | [] => false
          | t :: ts2 => t ≠ '/' && globMatchFuel fuel ('*' :: ps) ts2)
  | fuel + 1, '?' :: ps, t :: ts =>
    t ≠ '/' && globMatchFuel fuel ps ts
  | fuel + 1, p :: ps, t :: ts =>
    p = t && globMatchFuel fuel ps ts
  | _ + 1, _ :: _, [] => false
  | _ + 1, [], _ :: _ => false

/-- Model of glob_match(pattern, text) from the glob_match crate. -/
def globMatch (pattern text : String) : Bool :=
  globMatchFuel (2 * (pattern.length + text.length) + 2) pattern.data text.data

/-- Rust str::to_lowercase restricted to the ASCII fragment the
repository's patterns and names exercise. -/
def lowerStr (s : String) : String :=
  String.mk (s.data.map Char.toLower)

/-- The pattern rewrite of search_files_iter (files.rs lines 64-69): a
pattern containing a star is lowercased as-is, any other pattern is
wrapped for partial matching. -/
def updatedPattern (pattern : String) : String :=
  if pattern.data.contains '*' then lowerStr pattern
  else "**/*" ++ lowerStr pattern ++ "*"

/-- The include decision of search_files_iter (files.rs lines 109-114):
the glob is matched against the entry's lowercased file name. -/
def searchFilesIncludeOk (pattern fileName : String) : Bool :=
  globMatch (updatedPattern pattern) (lowerStr fileName)

/-- The include decision of search_files_content (content.rs lines
242-245): the caller's file pattern is matched against the entry's full
path (entry.path() of the walk, an absolute path when the walk root is
absolute). -/
def contentIncludeOk (filePattern absPath : String) : Bool :=
  globMatch filePattern absPath

/-- Rust Path::strip_prefix as used on walk entries (ast.rs line 280):
drop the root followed by a separator from the front of the path; if the
path does not start with the root, it is returned unchanged
(unwrap_or(path)). -/
def relativeTo (root path : String) : String :=
  let pre := root ++ "/"
  if path.take pre.length = pre then path.drop pre.length else path

/-- The include decision of search_files_ast (ast.rs lines 279-283): the
compiled include glob (abstracted as isMatch) is applied to the entry's
path relative to the walk root. -/
def astIncludeOk (isMatch : String → Bool) (root absPath : String) : Bool :=
  isMatch (relativeTo root absPath)

/-! ## find_duplicate_files (fs_service/search/files.rs, lines 146-262)

A file is a pair of its path and its content bytes.  The HashMap-based
grouping (entry().or_default().push) is modelled order-abstractly: the
groups are indexed by the distinct keys, each group holding exactly the
entries bearing its key; the Rust output order is unspecified.  SHA-256
is modelled as an injective digest (the identity on the hashed bytes),
matching the specification's identification of byte-identical content
with identical SHA-256. -/

/-- Groups a list by a key: one group per distinct key, in the order the
deduplicated key list produces, each group holding the entries with that
key in input order. -/
def groupByKey {κ α : Type} [DecidableEq κ] (key : α → κ) (l : List α) :
    List (κ × List α) :=
  (l.map key).dedup.map (fun k => (k, l.filter (fun a => key a = k)))

/-- SHA-256 modelled as an injective digest of the hashed bytes. -/
def sha256Model (bytes : List Nat) : List Nat := bytes

/-- The quick hash of phase 2 (files.rs lines 203-209): SHA-256 of the
first 4096 bytes of the file. -/
def quickHash (content : List Nat) : List Nat := sha256Model (content.take 4096)

/-- The full hash of phase 3 (files.rs lines 234-245): SHA-256 of the
entire file. -/
def fullHash (content : List Nat) : List Nat := sha256Model content

/-- Phase 1 of find_duplicate_files (files.rs lines 161-193): group by
exact size and keep the buckets with more than one file. -/
def sizeStage (files : List (String × List Nat)) :
    List (List (String × List Nat)) :=
  ((groupByKey (fun f => f.2.length) files).map Prod.snd).filter
    (fun g => g.length > 1)

/-- Phase 2 of find_duplicate_files (files.rs lines 195-226): the
surviving files are hashed over their first 4 KiB into one shared map
and the buckets with more than one file survive. -/
def quickStage (pool : List (String × List Nat)) :
    List (List (String × List Nat)) :=
  ((groupByKey (fun f => quickHash f.2) pool).map Prod.snd).filter
    (fun g => g.length > 1)

/-- Phase 3 of find_duplicate_files (files.rs lines 228-259): the
survivors are hashed in full and the buckets with more than one file are
the duplicate groups. -/
def fullStage (pool : List (String × List Nat)) :
    List (List (String × List Nat)) :=
  ((groupByKey (fun f => fullHash f.2) pool).map Prod.snd).filter
    (fun g => g.length > 1)

/-- The three-phase pipeline of find_duplicate_files (files.rs lines
161-259), keeping the content next to each path. -/
def findDuplicateGroups (files : List (String × List Nat)) :
    List (List (String × List Nat)) :=
  fullStage ((quickStage ((sizeStage files).flatten)).flatten)

/-- find_duplicate_files (files.rs lines 146-262): the path groups of
the pipeline. -/
def findDuplicateFiles (files : List (String × List Nat)) :
    List (List String) :=
  (findDuplicateGroups files).map (List.map Prod.fst)

/-! ## Snippet extraction (fs_service/search/content.rs, lines 98-156)

A Rust string slice is modelled as a list of characters; byte positions
are recovered from the UTF-8 width of each character.  A byte-indexed
slicing operation returns none exactly when Rust would panic: when an
index bisects a codepoint or the start exceeds the end. -/

/-- SNIPPET_MAX_LENGTH (content.rs line 17). -/
def SNIPPET_MAX_LENGTH : Nat := 200

/-- SNIPPET_BACKWARD_CHARS (content.rs line 18). -/
def SNIPPET_BACKWARD_CHARS : Nat := 30

/-- The UTF-8 width in bytes of one character. -/
def charWidth (c : Char) : Nat := c.utf8Size

/-- The length in bytes of a string given as its characters
(Rust str::len). -/
def byteLen : List Char → Nat
  | [] => 0
  | c :: cs => charWidth c + byteLen cs

/-- The byte offsets at which the characters of the string start,
from a given base offset (Rust str::char_indices). -/
def charIndicesFrom (off : Nat) : List Char → List Nat
  | [] => []
  | c :: cs => off :: charIndicesFrom (off + charWidth c) cs

/-- Rust str::char_indices: the byte offset of every character. -/
def charIndices (cs : List Char) : List Nat := charIndicesFrom 0 cs

/-- Drops the first n bytes of a string; none when n bisects a
codepoint or exceeds the length (Rust would panic slicing there). -/
def dropBytes : List Char → Nat → Option (List Char)
  | cs, 0 => some cs
  | [], _ + 1 => none
  | c :: cs, n + 1 =>
    if charWidth c ≤ n + 1 then dropBytes cs (n + 1 - charWidth c) else none

/-- Takes the first n bytes of a string; none when n bisects a
codepoint or exceeds the length. -/
def takeBytes : List Char → Nat → Option (List Char)
  | _, 0 => some []
  | [], _ + 1 => none
  | c :: cs, n + 1 =>
    if charWidth c ≤ n + 1 then (takeBytes cs (n + 1 - charWidth c)).map (c :: ·)
    else none

/-- Rust char::is_whitespace: the Unicode White_Space property. -/
def isRustWs (c : Char) : Bool :=
  let n := c.toNat
  n = 32 || n = 9 || n = 10 || n = 11 || n = 12 || n = 13 ||
  n = 0x85 || n = 0xA0 || n = 0x1680 ||
  (0x2000 ≤ n && n ≤ 0x200A) ||
  n = 0x2028 || n = 0x2029 || n = 0x202F || n = 0x205F || n = 0x3000

/-- Rust str::trim_start. -/
def trimStartC (cs : List Char) : List Char := cs.dropWhile isRustWs

/-- Rust str::trim_end. -/
def trimEndC (cs : List Char) : List Char :=
  (cs.reverse.dropWhile isRustWs).reverse

/-- Rust str::trim. -/
def trimC (cs : List Char) : List Char := trimEndC (trimStartC cs)

/-- Release-mode wrapping subtraction on usize (64-bit): the raw
subtraction at content.rs line 110 is not saturating, so a start inside
the leading whitespace wraps around. -/
def wrapSub64 (a b : Nat) : Nat := (a + 2 ^ 64 - b) % 2 ^ 64

/-- Whether n bytes are the exact UTF-8 length of an initial run of
characters: the positions at which Rust may slice the string without a
panic.  The recursion mirrors dropBytes. -/
def isBoundaryB : List Char → Nat → Bool
  | _, 0 => true
  | [], _ + 1 => false
  | c :: cs, n + 1 =>
    if charWidth c ≤ n + 1 then isBoundaryB cs (n + 1 - charWidth c)
    else false

/-- The snippet window start of extract_snippet_static (content.rs
lines 104-117): the match start adjusted for the trimmed leading
whitespace (wrapping) and moved back by backward_chars (saturating),
advanced to the next character boundary when the find succeeds, and
otherwise clamped to the trimmed length. -/
def snippetStartOf (line : List Char) (matchStart backwardChars : Nat) :
    Nat :=
  let startPos := byteLen line - byteLen (trimStartC line)
  let t := trimC line
  let desiredStart := (wrapSub64 matchStart startPos) - backwardChars
  ((charIndices t).find? (fun i => desiredStart ≤ i)).getD
    (min desiredStart (byteLen t))

/-- Embeds extract_snippet_static (content.rs lines 98-156).  Only the
start of the match is consulted by the source.  The result is none
exactly when the Rust function panics: when a computed slice index
bisects a codepoint or the window end precedes its start.  The Nat
subtraction of backward_chars is saturating as in the source; the
subtraction of the trimmed leading whitespace wraps as in a release
build. -/
def extractSnippetStatic (line : List Char) (matchStart maxLength
    backwardChars : Nat) : Option String :=
  let t := trimC line
  let tlen := byteLen t
  let snippetStart := snippetStartOf line matchStart backwardChars
  match dropBytes t snippetStart with
  | none => none
  | some suffix =>
    let desiredEnd :=
      match (charIndices suffix).get? maxLength with
      | some off => snippetStart + off
      | none => tlen
    let snippetEnd :=
      min (((charIndices t).find? (fun i => desiredEnd ≤ i)).getD tlen) tlen
    if snippetEnd < snippetStart then none
    else
      match takeBytes suffix (snippetEnd - snippetStart) with
      | none => none
      | some mid =>
        some ((if snippetStart > 0 then "..." else "") ++ String.mk mid ++
          (if snippetEnd < tlen then "..." else ""))

/-! ## Content search plumbing (fs_service/search/content.rs)

The regex engine is abstracted as a compiler from the query to a
line matcher (the first match's byte span on a line, as
RegexMatcher::find yields); compilation may fail.  A file is its path
together with either its lines or an I/O error; the walk filters are
orthogonal to the claims about this plumbing, so the file list stands
for the filter-passing entries in the serialised walk order. -/

/-- escape_regex from fs_service/utils.rs (lines 214-230). -/
def escapeRegex (s : String) : String :=
  String.mk ((s.data.map (fun c =>
    if ['.', '^', '$', '*', '+', '?', '(', ')', '[', ']', '{', '}',
        '\\', '|', '/'].contains c
    then ['\\', c] else [c])).flatten)

/-- One match inside a file (ContentMatchResult, content.rs lines
21-29).  The snippet is none when extract_snippet would panic. -/
structure ContentMatch where
  lineNumber : Nat
  startPos : Nat
  lineText : Option String
  deriving DecidableEq, Repr

/-- All matches of one file (FileSearchResult, content.rs lines
31-38). -/
structure FileSearchResult where
  filePath : String
  matchList : List ContentMatch
  deriving DecidableEq, Repr

/-- A regex compiler: from the (possibly escaped) query to a line
matcher or a compilation error (RegexMatcherBuilder::build). -/
def RegexBuild : Type := String → Except String (String → Option (Nat × Nat))

/-- A file for the content searcher: its path, and its lines or the
I/O error reading it raises. -/
def FileModel : Type := String × Except String (List String)

/-- The per-line sink of the searcher (content.rs lines 76-85 and
315-332): every matching line contributes its 1-based number, the byte
start of the first match and the extracted snippet. -/
def collectMatches (find : String → Option (Nat × Nat))
    (lines : List String) : List ContentMatch :=
  lines.enum.filterMap (fun p =>
    match find p.2 with
    | some span =>
      some ⟨p.1 + 1, span.1,
        extractSnippetStatic p.2.data span.1 SNIPPET_MAX_LENGTH
          SNIPPET_BACKWARD_CHARS⟩
    | none => none)

/-- Embeds content_search (content.rs lines 49-93): escape the query
unless is_regex, compile the matcher (a compilation error propagates),
search the file (an I/O error propagates), and return none when no line
matched. -/
def contentSearch (build : RegexBuild) (query : String)
    (isRegex : Option Bool) (file : FileModel) :
    Except String (Option FileSearchResult) :=
  let q := if isRegex.getD false then query else escapeRegex query
  match build q with
  | .error e => .error e
  | .ok find =>
    match file.2 with
    | .error e => .error e
    | .ok lines =>
      let ms := collectMatches find lines
      .ok (if ms.isEmpty then none else some ⟨file.1, ms⟩)

/-- Embeds search_file_content_static (content.rs lines 298-343): the
query arrives already escaped; compilation and I/O errors propagate to
the caller of this helper; none when no line matched. -/
def searchFileContentStatic (build : RegexBuild) (query : String)
    (file : FileModel) : Except String (Option FileSearchResult) :=
  match build query with
  | .error e => .error e
  | .ok find =>
    match file.2 with
    | .error e => .error e
    | .ok lines =>
      let ms := collectMatches find lines
      .ok (if ms.isEmpty then none else some ⟨file.1, ms⟩)

/-- Embeds search_files_content (content.rs lines 177-294): the escaped
query is handed to the per-file helper inside the walk callback; a
failing per-file search (regex compilation or I/O) is silently skipped
by the if-let at line 273, a none result is skipped at line 277, and the
operation itself always returns Ok with the collected results. -/
def searchFilesContent (build : RegexBuild) (query : String)
    (isRegex : Bool) (files : List FileModel) :
    Except String (List FileSearchResult) :=
  let sq := if isRegex then query else escapeRegex query
  .ok (files.filterMap (fun f =>
    match searchFileContentStatic build sq f with
    | .ok (some r) => some r
    | _ => none))

/-! ## The edit engine (service core; modelled from the spec)

apply_file_edits lives in the service core, which is not part of src/;
the matching pipeline below is modelled from spec section 4.6 and the
repository's tests.  normalize_line_endings and detect_line_ending are
embedded from fs_service/utils.rs, which is part of src/. -/

/-- normalize_line_endings from fs_service/utils.rs (lines 104-106):
replace CRLF by LF, then lone CR by LF (fused into one pass, which
agrees with the sequential replaces). -/
def normNl : List Char → List Char
  | [] => []
  | '\r' :: '\n' :: rest => '\n' :: normNl rest
  | '\r' :: rest => '\n' :: normNl rest
  | c :: rest => c :: normNl rest

/-- Whether the text contains a CRLF pair. -/
def containsCrlf : List Char → Bool
  | [] => false
  | '\r' :: '\n' :: _ => true
  | _ :: rest => containsCrlf rest

/-- detect_line_ending from fs_service/utils.rs (lines 183-191). -/
def detectLineEndingC (cs : List Char) : List Char :=
  if containsCrlf cs then ['\r', '\n']
  else if cs.contains '\r' then ['\r']
  else ['\n']

/-- Splits a normalized buffer into its lines at LF, separators
removed. -/
def splitNl : List Char → List (List Char)
  | [] => [[]]
  | '\n' :: rest => [] :: splitNl rest
  | c :: rest =>
    match splitNl rest with
    | [] => [[c]]
    | l :: ls => (c :: l) :: ls

/-- Joins lines with LF. -/
def joinNl (ls : List (List Char)) : List Char :=
  match ls with
  | [] => []
  | [l] => l
  | l :: rest => l ++ '\n' :: joinNl rest

/-- Whether the text starts with the given run of characters. -/
def startsWithC (pre cs : List Char) : Bool := cs.take pre.length = pre

/-- Replaces the first occurrence of pat in buf by rep; none when pat
does not occur (Rust str::contains plus str::replacen).  The empty
pattern occurs at the start, as in Rust. -/
def replaceFirstC (buf pat rep : List Char) : Option (List Char) :=
  match buf with
  | [] => if pat = [] then some rep else none
  | c :: rest =>
    if startsWithC pat buf then some (rep ++ buf.drop pat.length)
    else (replaceFirstC rest pat rep).map (c :: ·)

/-- Leading whitespace of a line. -/
def leadWsC (cs : List Char) : List Char := cs.takeWhile isRustWs

/-- Modelled from the spec: one line of the pattern matches one line of
the buffer iff they are equal or equal after trimming (spec section
4.6, step c). -/
def lineMatchesRelaxed (b p : List Char) : Bool :=
  b = p || trimC b = trimC p

/-- Modelled from the spec: whether the pattern lines match the buffer
lines starting at the current position. -/
def linesMatchHere : List (List Char) → List (List Char) → Bool
  | _, [] => true
  | [], _ :: _ => false
  | b :: bs, p :: ps => lineMatchesRelaxed b p && linesMatchHere bs ps

/-- Modelled from the spec: re-indentation of the replacement lines
(spec section 4.6, step c): the first replacement line receives the
indentation of the matched buffer line; each further line is indented by
the captured indent plus the delta between its own leading whitespace
and the first pattern line's. -/
def reindent (origIndent : List Char) (patFirstIndentLen : Nat)
    (newLines : List (List Char)) : List (List Char) :=
  match newLines with
  | [] => []
  | first :: rest =>
    (origIndent ++ trimStartC first) ::
      rest.map (fun l =>
        origIndent ++
          List.replicate ((leadWsC l).length - patFirstIndentLen) ' ' ++
          trimStartC l)

/-- Modelled from the spec: the line-aware matching pass (spec section
4.6, step c): the first buffer position where every pattern line matches
relaxed is replaced by the re-indented replacement lines; none when no
position matches. -/
def lineAwareApply (bufLines patLines newLines : List (List Char)) :
    Option (List (List Char)) :=
  match bufLines with
  | [] => none
  | b :: bs =>
    if linesMatchHere (b :: bs) patLines then
      some (reindent (leadWsC b) (leadWsC (patLines.headD [])).length
          newLines ++ (b :: bs).drop patLines.length)
    else
      (lineAwareApply bs patLines newLines).map (b :: ·)

/-- Modelled from the spec: one edit of apply_file_edits (the
EditOperation of the data model, declared in the tools module that is
not part of src/). -/
structure EditOp where
  oldText : String
  newText : String
  deriving DecidableEq, Repr

/-- Modelled from the spec: one edit applied to the normalized buffer
(spec section 4.6, step 4): normalize both texts, try the literal
replacement of the first occurrence, then the line-aware pass; none when
neither matches. -/
def applyEdit (buf : List Char) (e : EditOp) : Option (List Char) :=
  let old := normNl e.oldText.data
  let new := normNl e.newText.data
  match replaceFirstC buf old new with
  | some r => some r
  | none => (lineAwareApply (splitNl buf) (splitNl old) (splitNl new)).map joinNl

/-- Modelled from the spec: the edits applied in input order, each
seeing its predecessors' mutations; the first unmatched edit aborts with
a descriptive error naming its old_text. -/
def applyEdits (buf : List Char) : List EditOp → Except String (List Char)
  | [] => .ok buf
  | e :: rest =>
    match applyEdit buf e with
    | some b2 => applyEdits b2 rest
    | none => .error ("Could not find match for edit: " ++ e.oldText)

/-- Replaces every LF of the result by the detected line ending
(spec section 4.6, step 5). -/
def replaceNlWith (le : List Char) : List Char → List Char
  | [] => []
  | '\n' :: rest => le ++ replaceNlWith le rest
  | c :: rest => c :: replaceNlWith le rest

/-- Modelled from the spec: apply_file_edits of the service core over
the file's current content.  The first component is the outcome handed
to the caller; the second is the content of the file on disk after the
call (the write happens only on success and only when dry_run is
false). -/
def applyFileEdits (content : String) (edits : List EditOp)
    (dryRun : Bool) : Except String Unit × String :=
  let cs := content.data
  let le := detectLineEndingC cs
  match applyEdits (normNl cs) edits with
  | .error msg => (.error msg, content)
  | .ok newBuf =>
    let final := String.mk (replaceNlWith le newBuf)
    (.ok (), if dryRun then content else final)

/-! ## Concrete instances used by witnesses -/

/-- A filesystem in which every path exists and exactly the path
consisting of the single component a is a symlink. -/
def witnessFs : FsModel :=
  ⟨fun _ => true, fun p => p = [PathComponent.normal "a"]⟩

/-- A validation environment whose canonicalization is the identity. -/
def witnessEnv : ValidateEnv :=
  ⟨id, [], ⟨fun _ => false, fun _ => false⟩⟩

/-- A regex compiler that fails on the query consisting of a lone
opening bracket, the way RegexMatcherBuilder::build does. -/
def failingBuild : RegexBuild :=
  fun q => if q = "[" then .error "regex parse error: unclosed character class"
           else .ok (fun _ => none)

/-- A regex compiler whose matcher matches the whole first character of
the line abc. -/
def simpleBuild : RegexBuild :=
  fun _ => .ok (fun l => if l = "abc" then some (0, 1) else none)

/-- The per-file result the simple matcher produces on a one-line file
abc. -/
def simpleResult : FileSearchResult :=
  ⟨"f", [⟨1, 0, some "abc"⟩]⟩

/-!  # Theorems  -/

/-! ## C1: validation rejects paths outside the allow-list -/

theorem any_liesUnder_false {snapshot : List (List PathComponent)}
    {q : List PathComponent}
    (h : ∀ entry ∈ snapshot, liesUnder entry q = false) :
    snapshot.any (fun entry => liesUnder entry q) = false := by
  rw [List.any_eq_false]
  intro entry he
  simp [h entry he]

/-- C1: for every path p whose normalized form does not lie under any
entry of the allow-list snapshot, validate_path returns the NotAllowed
error; the empty snapshot is the instance with no entries, so there
validation fails for every input path. -/
theorem validate_path_not_allowed :
    (∀ (env : ValidateEnv) (snapshot : List (List PathComponent))
        (p : List PathComponent),
      (∀ entry ∈ snapshot,
        liesUnder entry (env.canon (expandHome env.home p)) = false) →
      validatePath env snapshot p = .error .notAllowed)
    ∧ ∀ (env : ValidateEnv) (p : List PathComponent),
        validatePath env [] p = .error .notAllowed := by
  constructor
  · intro env snapshot p h
    simp [validatePath, any_liesUnder_false h]
  · intro env p
    rfl

/-- Witness for C1 at a concrete snapshot and path. -/
theorem validate_path_not_allowed_witness :
    validatePath witnessEnv [[PathComponent.normal "allowed"]]
        [PathComponent.normal "other"] = .error .notAllowed ∧
    validatePath witnessEnv [] [PathComponent.normal "other"] =
      .error .notAllowed :=
  ⟨validate_path_not_allowed.1 witnessEnv [[PathComponent.normal "allowed"]]
      [PathComponent.normal "other"] (by decide),
   validate_path_not_allowed.2 witnessEnv [PathComponent.normal "other"]⟩

/-! ## C2: the symlink walk of contains_symlink -/

theorem containsSymlinkAux_iff (fs : FsModel)
    (hdc : ∀ p q, fs.pexists (p ++ q) = true → fs.pexists p = true) :
    ∀ (rest acc : List PathComponent),
      containsSymlinkAux fs acc rest = true ↔
        ∃ n, n < rest.length ∧
          isVerbatimDisk (rest.getD n .verbatimDisk) = false ∧
          fs.pexists (acc ++ rest.take (n + 1)) = true ∧
          fs.symlink (acc ++ rest.take (n + 1)) = true := by
  intro rest
  induction rest with
  | nil => intro acc; simp [containsSymlinkAux]
  | cons c cs ih =>
    intro acc
    by_cases hv : isVerbatimDisk c = true
    · rw [show containsSymlinkAux fs acc (c :: cs) =
          containsSymlinkAux fs (acc ++ [c]) cs by
        simp [containsSymlinkAux, hv]]
      rw [ih (acc ++ [c])]
      constructor
      · rintro ⟨n, hn, hnv, hex, hsl⟩
        refine ⟨n + 1, by simpa using Nat.succ_lt_succ hn, by simpa using hnv,
          ?_, ?_⟩
        · simpa [List.append_assoc] using hex
        · simpa [List.append_assoc] using hsl
      · rintro ⟨n, hn, hnv, hex, hsl⟩
        cases n with
        | zero => simp [hv] at hnv
        | succ m =>
          refine ⟨m, by simp at hn; omega, by simpa using hnv, ?_, ?_⟩
          · simpa [List.append_assoc] using hex
          · simpa [List.append_assoc] using hsl
    · by_cases hex1 : fs.pexists (acc ++ [c]) = true
      · by_cases hsl1 : fs.symlink (acc ++ [c]) = true
        · rw [show containsSymlinkAux fs acc (c :: cs) = true by
            simp [containsSymlinkAux, hv, hex1, hsl1]]
          constructor
          · intro _
            exact ⟨0, by simp, by simpa using
              Bool.eq_false_iff.mpr hv, by simpa using hex1,
              by simpa using hsl1⟩
          · intro _; rfl
        · rw [show containsSymlinkAux fs acc (c :: cs) =
              containsSymlinkAux fs (acc ++ [c]) cs by
            simp [containsSymlinkAux, hv, hex1, hsl1]]
          rw [ih (acc ++ [c])]
          constructor
          · rintro ⟨n, hn, hnv, hex, hsl⟩
            refine ⟨n + 1, by simpa using Nat.succ_lt_succ hn,
              by simpa using hnv, ?_, ?_⟩
            · simpa [List.append_assoc] using hex
            · simpa [List.append_assoc] using hsl
          · rintro ⟨n, hn, hnv, hex, hsl⟩
            cases n with
            | zero =>
              exfalso
              apply hsl1
              simpa using hsl
            | succ m =>
              refine ⟨m, by simp at hn; omega, by simpa using hnv, ?_, ?_⟩
              · simpa [List.append_assoc] using hex
              · simpa [List.append_assoc] using hsl
      · rw [show containsSymlinkAux fs acc (c :: cs) = false by
          simp [containsSymlinkAux, hv, hex1]]
        simp only [Bool.false_eq_true, false_iff]
        rintro ⟨n, hn, hnv, hex, hsl⟩
        apply hex1
        cases n with
        | zero => simpa using hex
        | succ m =>
          have : acc ++ (c :: cs).take (m + 2) =
              (acc ++ [c]) ++ cs.take (m + 1) := by
            simp [List.append_assoc]
          rw [this] at hex
          exact hdc _ _ hex

/-- C2: on a downward-closed filesystem (the ancestors of an existing
path exist), contains_symlink returns true exactly when some component
run of the path exists and is a symlink, a verbatim-disk component never
counting as the symlink. -/
theorem contains_symlink_iff (fs : FsModel) (path : List PathComponent)
    (hdc : ∀ p q, fs.pexists (p ++ q) = true → fs.pexists p = true) :
    containsSymlink fs path = true ↔
      ∃ n, n < path.length ∧
        isVerbatimDisk (path.getD n .verbatimDisk) = false ∧
        fs.pexists (path.take (n + 1)) = true ∧
        fs.symlink (path.take (n + 1)) = true := by
  have h := containsSymlinkAux_iff fs hdc path []
  simpa [containsSymlink] using h

/-- Witness for C2 at a concrete filesystem with one symlink. -/
theorem contains_symlink_iff_witness :
    containsSymlink witnessFs
      [PathComponent.normal "a", PathComponent.normal "b"] = true :=
  (contains_symlink_iff witnessFs
      [PathComponent.normal "a", PathComponent.normal "b"]
      (fun _ _ _ => rfl)).mpr
    ⟨0, by decide, by decide, by decide, by decide⟩

/-! ## C3: the from-end read disagrees with the slice its own test
prescribes -/

/-- C3: on the ten-line file of test_from_end_optimization, the from_end
branch of read_file_lines returns the text "line3\nline4\nline5\n",
whereas the specification's slice (and the repository's own test) demand
the last three lines "line8\nline9\nline10"; the start index taken from
the descending newline-position vector selects lines from the wrong end
of the file. -/
theorem read_file_lines_from_end_bug :
    readFileLinesFromEnd testTenLines.data 0 (some 3) =
      "line3\nline4\nline5\n" ∧
    specFromEndSlice ["line1", "line2", "line3", "line4", "line5",
      "line6", "line7", "line8", "line9", "line10"] 0 (some 3) =
      ["line8", "line9", "line10"] ∧
    readFileLinesFromEnd testTenLines.data 0 (some 3) ≠
      "line8\nline9\nline10" := by
  refine ⟨by decide, by decide, by decide⟩

/-! ## C4: apply_file_edits is all-or-nothing -/

/-- C4: when any edit of the list matches neither literally nor
line-aware against the buffer current at its turn (the edit fold stops
with an error), apply_file_edits reports a descriptive error and the
on-disk content is byte-for-byte the original. -/
theorem apply_file_edits_all_or_nothing (content : String)
    (edits : List EditOp) (dryRun : Bool)
    (h : ∃ msg, applyEdits (normNl content.data) edits = .error msg) :
    (∃ msg, (applyFileEdits content edits dryRun).1 = .error msg) ∧
    (applyFileEdits content edits dryRun).2 = content := by
  obtain ⟨msg, hm⟩ := h
  simp only [applyFileEdits, hm]
  exact ⟨⟨msg, rfl⟩, trivial⟩

/-- Witness for C4 on the file and unmatched edit of
test_apply_file_edits_no_match. -/
theorem apply_file_edits_all_or_nothing_witness :
    (∃ msg, (applyFileEdits "line1\nline2\nline3"
        [⟨"non_existent", "line4"⟩] false).1 = .error msg) ∧
    (applyFileEdits "line1\nline2\nline3"
        [⟨"non_existent", "line4"⟩] false).2 = "line1\nline2\nline3" :=
  apply_file_edits_all_or_nothing "line1\nline2\nline3"
    [⟨"non_existent", "line4"⟩] false
    ⟨"Could not find match for edit: non_existent", rfl⟩

/-! ## C5: duplicate groups are closed under content equality -/

theorem groupByKey_snd_mem {κ α : Type} [DecidableEq κ] {key : α → κ}
    {l : List α} {g : List α}
    (hg : g ∈ (groupByKey key l).map Prod.snd) :
    ∃ k, g = l.filter (fun a => key a = k) := by
  simp only [groupByKey, List.map_map] at hg
  obtain ⟨k, _, hk⟩ := List.mem_map.mp hg
  exact ⟨k, hk.symm⟩

theorem groupByKey_pairwise_key {κ α : Type} [DecidableEq κ]
    (key : α → κ) (l : List α) :
    List.Pairwise (fun g₁ g₂ => ∀ a ∈ g₁, ∀ b ∈ g₂, key a ≠ key b)
      ((groupByKey key l).map Prod.snd) := by
  have hrw : (groupByKey key l).map Prod.snd =
      (l.map key).dedup.map (fun k => l.filter (fun a => key a = k)) := by
    simp [groupByKey, List.map_map]
  rw [hrw]
  refine List.Pairwise.map _ ?_ (l.map key).nodup_dedup
  intro k₁ k₂ hne a ha b hb
  have hka : key a = k₁ := by
    simpa using (List.mem_filter.mp ha).2
  have hkb : key b = k₂ := by
    simpa using (List.mem_filter.mp hb).2
  rw [hka, hkb]
  exact hne

theorem fullStage_length {pool : List (String × List Nat)}
    {g : List (String × List Nat)} (hg : g ∈ fullStage pool) :
    2 ≤ g.length := by
  have := (List.mem_filter.mp hg).2
  simp at this
  omega

theorem fullStage_content_eq {pool : List (String × List Nat)}
    {g : List (String × List Nat)} (hg : g ∈ fullStage pool) :
    ∀ a ∈ g, ∀ b ∈ g, a.2 = b.2 := by
  have hmem := (List.mem_filter.mp hg).1
  obtain ⟨k, hk⟩ := groupByKey_snd_mem hmem
  subst hk
  intro a ha b hb
  have hka : fullHash a.2 = k := by
    simpa using (List.mem_filter.mp ha).2
  have hkb : fullHash b.2 = k := by
    simpa using (List.mem_filter.mp hb).2
  have : fullHash a.2 = fullHash b.2 := hka.trans hkb.symm
  simpa [fullHash, sha256Model] using this

theorem fullStage_pairwise (pool : List (String × List Nat)) :
    List.Pairwise (fun g₁ g₂ => ∀ a ∈ g₁, ∀ b ∈ g₂, a.2 ≠ b.2)
      (fullStage pool) := by
  have h := groupByKey_pairwise_key (fun f : String × List Nat =>
    fullHash f.2) pool
  have h2 := h.filter (fun g => decide (g.length > 1))
  refine h2.imp ?_
  intro g₁ g₂ hgg a ha b hb
  have := hgg a ha b hb
  simpa [fullHash, sha256Model] using this

/-- C5: every group find_duplicate_files returns has at least two
members, every two members of one group have byte-identical contents
(the modelled SHA-256 digest is injective), no two files of distinct
groups have byte-identical contents, and the returned path groups are
the projections of the content-carrying groups. -/
theorem find_duplicate_files_sound (files : List (String × List Nat)) :
    (∀ g ∈ findDuplicateGroups files, 2 ≤ g.length) ∧
    (∀ g ∈ findDuplicateGroups files, ∀ a ∈ g, ∀ b ∈ g, a.2 = b.2) ∧
    List.Pairwise (fun g₁ g₂ => ∀ a ∈ g₁, ∀ b ∈ g₂, a.2 ≠ b.2)
      (findDuplicateGroups files) ∧
    findDuplicateFiles files =
      (findDuplicateGroups files).map (List.map Prod.fst) :=
  ⟨fun _ hg => fullStage_length hg,
   fun _ hg => fullStage_content_eq hg,
   fullStage_pairwise _,
   rfl⟩

/-- Witness for C5 on two identical files next to a distinct one. -/
theorem find_duplicate_files_sound_witness :
    findDuplicateGroups [("a", [1, 2]), ("b", [1, 2]), ("c", [9])] =
      [[("a", [1, 2]), ("b", [1, 2])]] ∧
    2 ≤ [(("a", [1, 2]) : String × List Nat), ("b", [1, 2])].length ∧
    (("a", [1, 2]) : String × List Nat).2 = (("b", [1, 2]) : String × List Nat).2 :=
  ⟨by decide,
   (find_duplicate_files_sound
      [("a", [1, 2]), ("b", [1, 2]), ("c", [9])]).1
     [("a", [1, 2]), ("b", [1, 2])] (by decide),
   (find_duplicate_files_sound
      [("a", [1, 2]), ("b", [1, 2]), ("c", [9])]).2.1
     [("a", [1, 2]), ("b", [1, 2])] (by decide)
     ("a", [1, 2]) (by decide) ("b", [1, 2]) (by decide)⟩

/-! ## C6: what each search matches its include glob against -/

/-- Counterexample to C6: search_files_content matches the include glob
against the entry's full path, not its path relative to the walk root;
under root /tmp/root the file /tmp/root/a.rs has relative path a.rs,
which matches the glob *.rs, yet the content-search include check
rejects the entry on account of its absolute prefix (while the AST
search, matching relatively, accepts it). -/
theorem content_include_glob_counterexample :
    relativeTo "/tmp/root" "/tmp/root/a.rs" = "a.rs" ∧
    globMatch "*.rs" "a.rs" = true ∧
    contentIncludeOk "*.rs" "/tmp/root/a.rs" = false ∧
    astIncludeOk (fun s => globMatch "*.rs" s) "/tmp/root" "/tmp/root/a.rs" =
      true := by
  refine ⟨by decide, by decide, by decide, by decide⟩

/-- C6 (amended): the include glob is matched against the lowercased
file name in search_files (so the decision is case-insensitive in the
name), against the path relative to the walk root in search_files_ast
(so the decision never depends on the absolute prefix), but against the
full path in search_files_content, where a file whose relative path
matches the include glob can be excluded on account of its absolute
prefix. -/
theorem include_glob_targets :
    (∀ pattern n₁ n₂, lowerStr n₁ = lowerStr n₂ →
      searchFilesIncludeOk pattern n₁ = searchFilesIncludeOk pattern n₂)
    ∧ (∀ (isMatch : String → Bool) root₁ root₂ p₁ p₂,
        relativeTo root₁ p₁ = relativeTo root₂ p₂ →
        astIncludeOk isMatch root₁ p₁ = astIncludeOk isMatch root₂ p₂)
    ∧ (∀ filePattern p,
        contentIncludeOk filePattern p = globMatch filePattern p)
    ∧ ∃ filePattern root p,
        globMatch filePattern (relativeTo root p) = true ∧
        contentIncludeOk filePattern p = false := by
  refine ⟨?_, ?_, ?_, ?_⟩
  · intro pattern n₁ n₂ h
    unfold searchFilesIncludeOk
    rw [h]
  · intro isMatch root₁ root₂ p₁ p₂ h
    unfold astIncludeOk
    rw [h]
  · intro filePattern p
    rfl
  · exact ⟨"*.rs", "/tmp/root", "/tmp/root/a.rs", by decide, by decide⟩

/-- Witness for C6 at concrete names and roots. -/
theorem include_glob_targets_witness :
    searchFilesIncludeOk "*.RS" "A.rs" = searchFilesIncludeOk "*.RS" "a.RS" ∧
    astIncludeOk (fun s => globMatch "*.rs" s) "/r" "/r/a.rs" =
      astIncludeOk (fun s => globMatch "*.rs" s) "/q" "/q/a.rs" :=
  ⟨include_glob_targets.1 "*.RS" "A.rs" "a.RS" (by decide),
   include_glob_targets.2.1 (fun s => globMatch "*.rs" s) "/r" "/q"
     "/r/a.rs" "/q/a.rs" (by decide)⟩

/-! ## C7: how search errors reach the caller -/

/-- Counterexample to C7: a regex compilation failure is surfaced by the
single-file content_search but swallowed by search_files_content, which
returns Ok with an empty result list instead of an error. -/
theorem regex_error_counterexample :
    failingBuild "[" = .error "regex parse error: unclosed character class" ∧
    contentSearch failingBuild "[" (some true) ("f.txt", .ok ["line"]) =
      .error "regex parse error: unclosed character class" ∧
    searchFilesContent failingBuild "[" true [("f.txt", .ok ["line"])] =
      .ok [] := by
  exact ⟨rfl, rfl, rfl⟩

/-- C7 (amended): content_search surfaces a regex compilation error as
an error to the caller; search_files_content instead silently skips
every file whose per-file search fails, compilation errors and per-file
I/O failures alike, so under a compile error it returns Ok with an empty
list, and in general it returns Ok where every emitted result stems from
a successful per-file search. -/
theorem regex_error_propagation :
    (∀ (build : RegexBuild) (query : String) (isRegex : Option Bool)
        (file : FileModel) (msg : String),
      build (if isRegex.getD false then query else escapeRegex query) =
          .error msg →
      contentSearch build query isRegex file = .error msg)
    ∧ (∀ (build : RegexBuild) (query : String) (isRegex : Bool)
        (files : List FileModel) (msg : String),
      build (if isRegex then query else escapeRegex query) = .error msg →
      searchFilesContent build query isRegex files = .ok [])
    ∧ ∀ (build : RegexBuild) (query : String) (isRegex : Bool)
        (files : List FileModel),
      ∃ rs, searchFilesContent build query isRegex files = .ok rs ∧
        ∀ r ∈ rs, ∃ f ∈ files,
          searchFileContentStatic build
            (if isRegex then query else escapeRegex query) f =
            .ok (some r) := by
  refine ⟨?_, ?_, ?_⟩
  · intro build query isRegex file msg h
    simp only [contentSearch, h]
  · intro build query isRegex files msg h
    simp only [searchFilesContent, List.filterMap_eq_nil_iff,
      searchFileContentStatic, h, Except.ok.injEq]
    intro f hf
    trivial
  · intro build query isRegex files
    refine ⟨_, rfl, ?_⟩
    intro r hr
    obtain ⟨f, hf, hmap⟩ := List.mem_filterMap.mp hr
    refine ⟨f, hf, ?_⟩
    revert hmap
    cases hs : searchFileContentStatic build
        (if isRegex then query else escapeRegex query) f with
    | error e => simp
    | ok o =>
      cases o with
      | none => simp
      | some r2 =>
        intro hmap
        cases hmap
        rfl

/-- Witness for C7 at the failing compiler and a concrete file list. -/
theorem regex_error_propagation_witness :
    contentSearch failingBuild "[" (some true) ("f.txt", .ok ["line"]) =
      .error "regex parse error: unclosed character class" ∧
    searchFilesContent failingBuild "[" true [("f.txt", .ok ["line"])] =
      .ok [] :=
  ⟨regex_error_propagation.1 failingBuild "[" (some true)
      ("f.txt", .ok ["line"]) _ rfl,
   regex_error_propagation.2.1 failingBuild "[" true
      [("f.txt", .ok ["line"])] _ rfl⟩

/-! ## C9: the soft and hard file caps of search_files_ast -/

theorem astScan_parts (n : Nat) :
    (astScan n).count = min n (MAX_FILES_LIMIT + 1) ∧
    (astScan n).parsed = min n MAX_FILES_LIMIT ∧
    ((astScan n).quit = true ↔ MAX_FILES_LIMIT < n) := by
  induction n with
  | zero =>
    refine ⟨?_, ?_, ?_⟩ <;> simp [astScan]
  | succ n ih =>
    obtain ⟨hc, hp, hq⟩ := ih
    have hstep : astScan (n + 1) = astScanStep (astScan n) := rfl
    by_cases h : MAX_FILES_LIMIT < n
    · have hqt : (astScan n).quit = true := hq.mpr h
      have hid : astScanStep (astScan n) = astScan n := by
        simp [astScanStep, hqt]
      rw [hstep, hid]
      refine ⟨?_, ?_, ?_⟩
      · rw [hc]; omega
      · rw [hp]; omega
      · rw [hq]; constructor <;> intro <;> omega
    · have hqf : (astScan n).quit = false := by
        cases hqv : (astScan n).quit
        · rfl
        · exact absurd (hq.mp hqv) h
      by_cases h2 : MAX_FILES_LIMIT ≤ (astScan n).count
      · have hbig : astScanStep (astScan n) =
            ⟨(astScan n).count + 1, (astScan n).parsed, true⟩ := by
          simp [astScanStep, hqf, h2]
        rw [hstep, hbig]
        rw [hc] at h2
        refine ⟨?_, ?_, ?_⟩
        · show (astScan n).count + 1 = min (n + 1) (MAX_FILES_LIMIT + 1)
          rw [hc]; omega
        · show (astScan n).parsed = min (n + 1) MAX_FILES_LIMIT
          rw [hp]; omega
        · show true = true ↔ MAX_FILES_LIMIT < n + 1
          constructor
          · intro _; omega
          · intro _; rfl
      · have hsmall : astScanStep (astScan n) =
            ⟨(astScan n).count + 1, (astScan n).parsed + 1,
              (astScan n).quit⟩ := by
          simp [astScanStep, hqf, h2]
        rw [hstep, hsmall]
        rw [hc] at h2
        refine ⟨?_, ?_, ?_⟩
        · show (astScan n).count + 1 = min (n + 1) (MAX_FILES_LIMIT + 1)
          rw [hc]; omega
        · show (astScan n).parsed + 1 = min (n + 1) MAX_FILES_LIMIT
          rw [hp]; omega
        · show (astScan n).quit = true ↔ MAX_FILES_LIMIT < n + 1
          rw [hqf]
          simp only [Bool.false_eq_true, false_iff]
          omega

/-- C9: the walk of search_files_ast never AST-parses more than
MAX_FILES_LIMIT filter-matching files; once the counter has reached the
limit the incompleteness warning is emitted and no further file is
parsed no matter how many more the walk would visit; and when the final
count lies between the warning threshold and the limit, only the
informational note is emitted and no worker ever quit the walk. -/
theorem ast_scan_thresholds (n m : Nat) :
    (astScan n).parsed ≤ MAX_FILES_LIMIT
    ∧ (MAX_FILES_LIMIT ≤ (astScan n).count →
        astWarnEmitted (astScan n).count = true ∧
        (n ≤ m → (astScan m).parsed = (astScan n).parsed))
    ∧ (MAX_FILES_WARNING ≤ (astScan n).count ∧
        (astScan n).count < MAX_FILES_LIMIT →
        astInfoEmitted (astScan n).count = true ∧
        astWarnEmitted (astScan n).count = false ∧
        (astScan n).quit = false) := by
  obtain ⟨hc, hp, hq⟩ := astScan_parts n
  refine ⟨?_, ?_, ?_⟩
  · rw [hp]; exact Nat.min_le_right _ _
  · intro h
    refine ⟨decide_eq_true h, ?_⟩
    intro hm
    obtain ⟨hc2, hp2, hq2⟩ := astScan_parts m
    rw [hp, hp2]
    rw [hc] at h
    omega
  · rintro ⟨h1, h2⟩
    refine ⟨?_, ?_, ?_⟩
    · simp only [astInfoEmitted, Bool.and_eq_true, Bool.not_eq_true',
        decide_eq_false_iff_not, decide_eq_true_eq]
      exact ⟨by omega, h1⟩
    · simp only [astWarnEmitted, ge_iff_le, decide_eq_false_iff_not]
      omega
    · cases hqv : (astScan n).quit
      · rfl
      · exfalso
        have := hq.mp hqv
        rw [hc] at h2
        omega

/-- Witness for C9 at a walk of exactly MAX_FILES_LIMIT files. -/
theorem ast_scan_thresholds_witness :
    (astScan 10000).parsed ≤ MAX_FILES_LIMIT ∧
    astWarnEmitted (astScan 10000).count = true := by
  have h : MAX_FILES_LIMIT ≤ (astScan 10000).count := by
    rw [(astScan_parts 10000).1]
    simp [MAX_FILES_LIMIT]
  exact ⟨(ast_scan_thresholds 10000 10000).1,
    ((ast_scan_thresholds 10000 10000).2.1 h).1⟩

/-! ## C10: every emitted file result carries at least one match -/

theorem searchFileContentStatic_some_nonempty {build : RegexBuild}
    {q : String} {f : FileModel} {r : FileSearchResult}
    (h : searchFileContentStatic build q f = .ok (some r)) :
    r.matchList ≠ [] := by
  unfold searchFileContentStatic at h
  cases hb : build q with
  | error e => rw [hb] at h; simp at h
  | ok find =>
    rw [hb] at h
    cases hf : f.2 with
    | error e => rw [hf] at h; simp at h
    | ok lines =>
      rw [hf] at h
      by_cases hms : collectMatches find lines = []
      · simp [hms] at h
      · simp only [List.isEmpty_iff, hms, if_false, Except.ok.injEq,
          Option.some.injEq] at h
        rw [← h]
        simpa using hms

/-- C10: a file in which no line matches yields none from
content_search and is absent from search_files_content's output, so
every returned FileSearchResult has a non-empty match list. -/
theorem content_results_nonempty :
    (∀ (build : RegexBuild) (query : String) (isRegex : Option Bool)
        (file : FileModel) (r : FileSearchResult),
      contentSearch build query isRegex file = .ok (some r) →
      r.matchList ≠ [])
    ∧ ∀ (build : RegexBuild) (query : String) (isRegex : Bool)
        (files : List FileModel) (rs : List FileSearchResult),
      searchFilesContent build query isRegex files = .ok rs →
      ∀ r ∈ rs, r.matchList ≠ [] := by
  constructor
  · intro build query isRegex file r h
    simp only [contentSearch] at h
    cases hb : build (if isRegex.getD false then query
        else escapeRegex query) with
    | error e => rw [hb] at h; simp at h
    | ok find =>
      rw [hb] at h
      cases hf : file.2 with
      | error e => rw [hf] at h; simp at h
      | ok lines =>
        rw [hf] at h
        by_cases hms : collectMatches find lines = []
        · simp [hms] at h
        · simp only [List.isEmpty_iff, hms, if_false, Except.ok.injEq,
            Option.some.injEq] at h
          rw [← h]
          simpa using hms
  · intro build query isRegex files rs h r hr
    simp only [searchFilesContent, Except.ok.injEq] at h
    rw [← h] at hr
    obtain ⟨f, _, hmap⟩ := List.mem_filterMap.mp hr
    revert hmap
    cases hs : searchFileContentStatic build
        (if isRegex then query else escapeRegex query) f with
    | error e => simp
    | ok o =>
      cases o with
      | none => simp
      | some r2 =>
        intro hmap
        cases hmap
        exact searchFileContentStatic_some_nonempty hs

/-- Witness for C10 on a one-line file matched by a simple matcher. -/
theorem content_results_nonempty_witness :
    simpleResult.matchList ≠ [] :=
  content_results_nonempty.1 simpleBuild "abc" (some false)
    ("f", .ok ["abc"]) simpleResult rfl

/-! ## C8: snippet extraction and UTF-8 boundaries -/

theorem charWidth_pos (c : Char) : 0 < charWidth c := by
  unfold charWidth
  exact Char.utf8Size_pos c

theorem byteLen_append (xs ys : List Char) :
    byteLen (xs ++ ys) = byteLen xs + byteLen ys := by
  induction xs with
  | nil => simp [byteLen]
  | cons c cs ih => simp [byteLen, ih]; omega

theorem isBoundaryB_cons_pos (c : Char) (cs : List Char) (n : Nat)
    (h : 0 < n) :
    isBoundaryB (c :: cs) n =
      if charWidth c ≤ n then isBoundaryB cs (n - charWidth c)
      else false := by
  cases n with
  | zero => omega
  | succ m => rfl

theorem isBoundaryB_le {cs : List Char} {n : Nat}
    (h : isBoundaryB cs n = true) : n ≤ byteLen cs := by
  induction cs generalizing n with
  | nil =>
    cases n with
    | zero => simp
    | succ m => simp [isBoundaryB] at h
  | cons c cs ih =>
    cases n with
    | zero => simp
    | succ m =>
      rw [isBoundaryB_cons_pos c cs (m + 1) (by omega)] at h
      by_cases hw : charWidth c ≤ m + 1
      · rw [if_pos hw] at h
        have := ih h
        simp [byteLen]
        omega
      · rw [if_neg hw] at h
        exact absurd h (by simp)

theorem isBoundaryB_byteLen (cs : List Char) :
    isBoundaryB cs (byteLen cs) = true := by
  induction cs with
  | nil => rfl
  | cons c cs ih =>
    have hpos : 0 < byteLen (c :: cs) := by
      have := charWidth_pos c
      simp [byteLen]
      omega
    rw [isBoundaryB_cons_pos c cs _ hpos]
    have hw : charWidth c ≤ byteLen (c :: cs) := by
      simp [byteLen]
    rw [if_pos hw]
    have : byteLen (c :: cs) - charWidth c = byteLen cs := by
      simp [byteLen]
    rw [this]
    exact ih

theorem charIndicesFrom_shift (cs : List Char) :
    ∀ off : Nat, charIndicesFrom off cs =
      (charIndicesFrom 0 cs).map (fun i => i + off) := by
  induction cs with
  | nil => intro off; rfl
  | cons c cs ih =>
    intro off
    show off :: charIndicesFrom (off + charWidth c) cs =
      (0 :: charIndicesFrom (0 + charWidth c) cs).map (fun i => i + off)
    rw [List.map_cons]
    congr 1
    · omega
    · rw [ih (off + charWidth c), ih (0 + charWidth c), List.map_map]
      apply List.map_congr_left
      intro a _
      simp
      omega

theorem mem_charIndices_isBoundaryB {cs : List Char} {i : Nat}
    (h : i ∈ charIndices cs) : isBoundaryB cs i = true := by
  induction cs generalizing i with
  | nil => simp [charIndices, charIndicesFrom] at h
  | cons c cs ih =>
    unfold charIndices charIndicesFrom at h
    rcases List.mem_cons.mp h with h0 | hrest
    · subst h0; rfl
    · rw [charIndicesFrom_shift] at hrest
      obtain ⟨m, hm, hmi⟩ := List.mem_map.mp hrest
      have hb := ih (show m ∈ charIndices cs from hm)
      have hpos : 0 < i := by
        have := charWidth_pos c
        omega
      rw [isBoundaryB_cons_pos c cs i hpos]
      have hw : charWidth c ≤ i := by omega
      rw [if_pos hw]
      have : i - charWidth c = m := by omega
      rw [this]
      exact hb

theorem isBoundaryB_append (pre suf : List Char) (m : Nat) :
    isBoundaryB (pre ++ suf) (byteLen pre + m) = isBoundaryB suf m := by
  induction pre with
  | nil => simp [byteLen]
  | cons c pre ih =>
    have hw := charWidth_pos c
    have hpos : 0 < byteLen (c :: pre) + m := by
      simp [byteLen]; omega
    rw [List.cons_append, isBoundaryB_cons_pos c (pre ++ suf) _ hpos]
    have hle : charWidth c ≤ byteLen (c :: pre) + m := by
      simp [byteLen]; omega
    rw [if_pos hle]
    have : byteLen (c :: pre) + m - charWidth c = byteLen pre + m := by
      simp [byteLen]; omega
    rw [this]
    exact ih

theorem dropBytes_of_boundary :
    ∀ (cs : List Char) (n : Nat), isBoundaryB cs n = true →
      ∃ pre suf, cs = pre ++ suf ∧ byteLen pre = n ∧
        dropBytes cs n = some suf := by
  intro cs
  induction cs with
  | nil =>
    intro n h
    cases n with
    | zero => exact ⟨[], [], rfl, rfl, rfl⟩
    | succ m => simp [isBoundaryB] at h
  | cons c cs ih =>
    intro n h
    cases n with
    | zero => exact ⟨[], c :: cs, rfl, rfl, rfl⟩
    | succ m =>
      rw [isBoundaryB_cons_pos c cs (m + 1) (by omega)] at h
      by_cases hw : charWidth c ≤ m + 1
      · rw [if_pos hw] at h
        obtain ⟨pre, suf, hcs, hlen, hdrop⟩ := ih (m + 1 - charWidth c) h
        refine ⟨c :: pre, suf, by rw [hcs]; rfl, ?_, ?_⟩
        · simp [byteLen, hlen]; omega
        · show (if charWidth c ≤ m + 1 then
              dropBytes cs (m + 1 - charWidth c) else none) = some suf
          rw [if_pos hw]; exact hdrop
      · rw [if_neg hw] at h
        exact absurd h (by simp)

theorem takeBytes_of_boundary :
    ∀ (cs : List Char) (n : Nat), isBoundaryB cs n = true →
      ∃ pre suf, cs = pre ++ suf ∧ byteLen pre = n ∧
        takeBytes cs n = some pre := by
  intro cs
  induction cs with
  | nil =>
    intro n h
    cases n with
    | zero => exact ⟨[], [], rfl, rfl, rfl⟩
    | succ m => simp [isBoundaryB] at h
  | cons c cs ih =>
    intro n h
    cases n with
    | zero => exact ⟨[], c :: cs, rfl, rfl, rfl⟩
    | succ m =>
      rw [isBoundaryB_cons_pos c cs (m + 1) (by omega)] at h
      by_cases hw : charWidth c ≤ m + 1
      · rw [if_pos hw] at h
        obtain ⟨pre, suf, hcs, hlen, htake⟩ := ih (m + 1 - charWidth c) h
        refine ⟨c :: pre, suf, by rw [hcs]; rfl, ?_, ?_⟩
        · simp [byteLen, hlen]; omega
        · show (if charWidth c ≤ m + 1 then
              (takeBytes cs (m + 1 - charWidth c)).map (c :: ·)
              else none) = some (c :: pre)
          rw [if_pos hw, htake]
          rfl
      · rw [if_neg hw] at h
        exact absurd h (by simp)

/-- Counterexample to C8: on the line with text a, an e-acute and two
trailing spaces, a match starting at the byte offset 4 (a character
boundary of the line, inside its trailing whitespace) with
backward_chars 2 drives the desired window start strictly inside the
final character of the trimmed line; the forward boundary search finds
no boundary at or past it, the fallback is not a boundary, and the Rust
function panics slicing there (modelled as none). -/
theorem extract_snippet_counterexample :
    extractSnippetStatic ['a', 'é', ' ', ' '] 4 200 2 = none ∧
    4 ∈ charIndices ['a', 'é', ' ', ' '] := by
  refine ⟨by decide, by decide⟩

/-- C8 (amended): whenever the computed window start is a character
boundary of the trimmed line, which holds except when the desired start
falls strictly inside its final character, snippet extraction succeeds
and returns the ellipses around a contiguous character run of the
trimmed line, so the result is valid UTF-8 and both window edges lie on
character boundaries. -/
theorem extract_snippet_boundary_safe (line : List Char)
    (matchStart maxLength backwardChars : Nat)
    (h : isBoundaryB (trimC line)
        (snippetStartOf line matchStart backwardChars) = true) :
    ∃ (pre mid post : List Char) (e₁ e₂ : String),
      trimC line = pre ++ (mid ++ post) ∧
      (e₁ = "" ∨ e₁ = "...") ∧ (e₂ = "" ∨ e₂ = "...") ∧
      extractSnippetStatic line matchStart maxLength backwardChars =
        some (e₁ ++ String.mk mid ++ e₂) := by
  obtain ⟨pre, suffix, ht, hlen, hdrop⟩ :=
    dropBytes_of_boundary (trimC line) _ h
  have hss_le : snippetStartOf line matchStart backwardChars ≤
      byteLen (trimC line) := isBoundaryB_le h
  -- the desired end of the window, as computed after the drop
  set de := (match (charIndices suffix).get? maxLength with
    | some off => snippetStartOf line matchStart backwardChars + off
    | none => byteLen (trimC line)) with hde
  have hde_ge : snippetStartOf line matchStart backwardChars ≤ de := by
    cases hoff : (charIndices suffix).get? maxLength with
    | none => simp only [hde, hoff]; exact hss_le
    | some off =>
      simp only [hde, hoff]
      exact Nat.le_add_right _ _
  -- the clamped window end
  set se := min (((charIndices (trimC line)).find?
      (fun i => de ≤ i)).getD (byteLen (trimC line)))
      (byteLen (trimC line)) with hse
  have hse_boundary : isBoundaryB (trimC line) se = true := by
    rw [hse]
    cases hfind : (charIndices (trimC line)).find? (fun i => de ≤ i) with
    | none =>
      simp only [Option.getD_none, Nat.min_self]
      exact isBoundaryB_byteLen _
    | some i =>
      have hi := mem_charIndices_isBoundaryB
        (List.mem_of_find?_eq_some hfind)
      have hile := isBoundaryB_le hi
      simp only [Option.getD_some]
      rw [Nat.min_eq_left hile]
      exact hi
  have hse_ge : snippetStartOf line matchStart backwardChars ≤ se := by
    rw [hse]
    cases hfind : (charIndices (trimC line)).find? (fun i => de ≤ i) with
    | none =>
      simp only [Option.getD_none, Nat.min_self]
      exact hss_le
    | some i =>
      have hp := List.find?_some hfind
      have : de ≤ i := by simpa using hp
      simp only [Option.getD_some]
      exact le_min (le_trans hde_ge this) hss_le
  -- the slice end is a boundary of the suffix
  have hsuf_boundary : isBoundaryB suffix
      (se - snippetStartOf line matchStart backwardChars) = true := by
    have := isBoundaryB_append pre suffix
      (se - snippetStartOf line matchStart backwardChars)
    rw [hlen] at this
    have harg : snippetStartOf line matchStart backwardChars +
        (se - snippetStartOf line matchStart backwardChars) = se := by
      omega
    rw [harg, ← ht] at this
    rw [← this]
    exact hse_boundary
  obtain ⟨mid, post, hsuf, hmidlen, htake⟩ :=
    takeBytes_of_boundary suffix _ hsuf_boundary
  refine ⟨pre, mid, post,
    (if 0 < snippetStartOf line matchStart backwardChars then "..."
      else ""),
    (if se < byteLen (trimC line) then "..." else ""), ?_, ?_, ?_, ?_⟩
  · rw [ht, hsuf]
  · split <;> simp
  · split <;> simp
  · show (match dropBytes (trimC line)
        (snippetStartOf line matchStart backwardChars) with
      | none => none
      | some suffix =>
        let desiredEnd :=
          match (charIndices suffix).get? maxLength with
          | some off => snippetStartOf line matchStart backwardChars + off
          | none => byteLen (trimC line)
        let snippetEnd :=
          min (((charIndices (trimC line)).find?
            (fun i => desiredEnd ≤ i)).getD (byteLen (trimC line)))
            (byteLen (trimC line))
        if snippetEnd < snippetStartOf line matchStart backwardChars then
          none
        else
          match takeBytes suffix
              (snippetEnd - snippetStartOf line matchStart backwardChars)
            with
          | none => none
          | some mid =>
            some ((if snippetStartOf line matchStart backwardChars > 0
                then "..." else "") ++ String.mk mid ++
              (if snippetEnd < byteLen (trimC line) then "..." else "")))
      = some _
    rw [hdrop]
    simp only [← hde, ← hse]
    rw [if_neg (by omega), htake]

/-- Witness for C8 at a two-character ASCII line. -/
theorem extract_snippet_boundary_safe_witness :
    ∃ (pre mid post : List Char) (e₁ e₂ : String),
      trimC ['a', 'b'] = pre ++ (mid ++ post) ∧
      (e₁ = "" ∨ e₁ = "...") ∧ (e₂ = "" ∨ e₂ = "...") ∧
      extractSnippetStatic ['a', 'b'] 1 200 0 =
        some (e₁ ++ String.mk mid ++ e₂) :=
  extract_snippet_boundary_safe ['a', 'b'] 1 200 0 (by decide)

end RustMcpFs
